import Mathlib

/-!
Verification model of the tickerizer name-resolution engine
(src/tickerizer.js).  Strings are modelled as `List Char`; the reference
mapping as an ordered association list of (full name, identifier) pairs;
the two process caches as explicit values.  JavaScript regular expressions
are modelled character by character: `\w` is `[A-Za-z0-9_]`, `\s` is the
JavaScript whitespace class, `\b` the usual word boundary, and global
replacement scans left to right over the original string.  `Math.round` of
the non-negative quotient `100*(m-d)/m` is modelled exactly as the nearest
integer (half away from zero); the word-ratio thresholds (0.8, 0.7, 0.5,
0.3) are compared by cross multiplication, which agrees with the source's
floating-point comparisons at all realistic operand sizes.  Case mappings
(`toLowerCase`, `toUpperCase`) are modelled on the ASCII range, matching
the ASCII-only `\w` class that decides which characters survive
normalization.
-/

namespace Tickerizer

/-- JavaScript `\w`: ASCII letters, digits and underscore. -/
def isWordChar (c : Char) : Bool :=
  c.isAlpha || c.isDigit || c = '_'

/-- JavaScript `\s` (and the set trimmed by `String.prototype.trim`):
whitespace and line terminators. -/
def isSpaceChar (c : Char) : Bool :=
  c = ' ' || c = '\t' || c = '\n' || c = '\r' || c = '\x0b' || c = '\x0c' ||
  c = '\u00a0' || c = '\u1680' ||
  (0x2000 ≤ c.toNat && c.toNat ≤ 0x200a) ||
  c = '\u2028' || c = '\u2029' || c = '\u202f' || c = '\u205f' ||
  c = '\u3000' || c = '\ufeff'

/-- Drop trailing whitespace (`trimEnd`), processing from the right. -/
def rtrim (s : List Char) : List Char :=
  s.foldr (fun c acc => if acc.isEmpty && isSpaceChar c then [] else c :: acc) []

/-- JavaScript `String.prototype.trim`. -/
def trimWs (s : List Char) : List Char :=
  rtrim (s.dropWhile isSpaceChar)

/-- Collapse every maximal whitespace run to a single space:
`replace(/\s+/g, ' ')`.  The fuel argument (initialised to the string
length) only serves to make the recursion structural. -/
def collapseAux : Nat → List Char → List Char
  | _, [] => []
  | 0, s => s
  | n + 1, c :: s =>
    if isSpaceChar c then ' ' :: collapseAux n (s.dropWhile isSpaceChar)
    else c :: collapseAux n s

/-- JavaScript `replace(/\s+/g, ' ')`. -/
def collapseWs (s : List Char) : List Char :=
  collapseAux s.length s

/-- JavaScript `replace(/[^\w\s]/g, ' ')`: every character that is neither
a word character nor whitespace becomes one space. -/
def replaceNonWord (s : List Char) : List Char :=
  s.map (fun c => if isWordChar c || isSpaceChar c then c else ' ')

/-- JavaScript `split(/\s+/)`: whitespace runs separate tokens; a leading
or trailing run contributes an empty token, exactly as in JavaScript. -/
def splitWs (s : List Char) : List (List Char) :=
  let step : Char → List (List Char) × Bool → List (List Char) × Bool :=
    fun c st =>
      match st, c with
      | (tok :: toks, sawSpace), c =>
        if isSpaceChar c then
          if sawSpace then (tok :: toks, true) else ([] :: tok :: toks, true)
        else (( c :: tok) :: toks, false)
      | ([], _), c => ([[ c]], false)
  (s.foldr step ([[]], false)).1

/-- Word-character test on an optional character (`none` stands for the
edge of the string, which is not a word character). -/
def isWordOpt : Option Char → Bool
  | none => false
  | some c => isWordChar c

/-- JavaScript `\b` between two adjacent positions. -/
def boundaryB (a b : Option Char) : Bool :=
  isWordOpt a != isWordOpt b

/-- Strip a literal prefix: `stripLit w s = some r` exactly when
`s = w ++ r`. -/
def stripLit : List Char → List Char → Option (List Char)
  | [], s => some s
  | _ :: _, [] => none
  | c :: w, d :: s => if c = d then stripLit w s else none

/-- The dot-consuming branch of one alternative `lit\.?`: match the
literal followed by a dot, then the trailing `\b`. -/
def tryDotPart (s lit : List Char) : Option (Char × List Char) :=
  match stripLit (lit ++ ['.']) s with
  | some rest => if boundaryB (some '.') rest.head? then some ('.', rest) else none
  | none => none

/-- The plain branch of one alternative: match the literal alone, then the
trailing `\b`. -/
def tryPlainPart (s lit : List Char) : Option (Char × List Char) :=
  match stripLit lit s with
  | some rest =>
    if boundaryB (some (lit.getLastD ' ')) rest.head? then
      some (lit.getLastD ' ', rest)
    else none
  | none => none

/-- Try one regex alternative `lit\.?` (dot only when `dot` is true) at the
head of `s`, with the trailing `\b`; the greedy `?` tries the dot first.
On success, returns the last matched character and the rest of the string. -/
def tryOne (s : List Char) (lit : List Char) (dot : Bool) : Option (Char × List Char) :=
  (if dot then tryDotPart s lit else none).orElse (fun _ => tryPlainPart s lit)

/-- Try the alternatives of one suffix-removal regex in order. -/
def tryAlts (alts : List (List Char × Bool)) (s : List Char) : Option (Char × List Char) :=
  match alts with
  | [] => none
  | (lit, dot) :: rest => (tryOne s lit dot).orElse (fun _ => tryAlts rest s)

/-- Global replacement by the empty string of `\b(?:alt|…)\b`: scan left to
right over the original string; after a match, scanning resumes right after
it (the previous character for the next boundary test is the last matched
character).  Fuel is initialised to the string length; every match consumes
at least one character, so the fuel never runs out. -/
def scanRep (alts : List (List Char × Bool)) : Nat → Option Char → List Char → List Char
  | _, _, [] => []
  | 0, _, s => s
  | n + 1, prev, c :: s =>
    if boundaryB prev (some c) then
      match tryAlts alts (c :: s) with
      | some (lc, rest) => scanRep alts n (some lc) rest
      | none => c :: scanRep alts n (some c) s
    else c :: scanRep alts n (some c) s

/-- One whole-word removal pass, `cleanName.replace(regex, '')`. -/
def replacePass (alts : List (List Char × Bool)) (s : List Char) : List Char :=
  scanRep alts s.length none s

/-- Alternatives of `/\b(?:ltd\.?|limited|inc\.?|incorporated|corp\.?|corporation|llc|plc|pvt\.?|private)\b/g`. -/
def pass1 : List (List Char × Bool) :=
  [("ltd".toList, true), ("limited".toList, false), ("inc".toList, true),
   ("incorporated".toList, false), ("corp".toList, true),
   ("corporation".toList, false), ("llc".toList, false), ("plc".toList, false),
   ("pvt".toList, true), ("private".toList, false)]

/-- Alternatives of `/\b(?:co\.?|company|group|holding|holdings|industries|international|global)\b/g`. -/
def pass2 : List (List Char × Bool) :=
  [("co".toList, true), ("company".toList, false), ("group".toList, false),
   ("holding".toList, false), ("holdings".toList, false),
   ("industries".toList, false), ("international".toList, false),
   ("global".toList, false)]

/-- Alternatives of `/\b(?:&|and|amp)\b/g`. -/
def pass3 : List (List Char × Bool) :=
  [("&".toList, false), ("and".toList, false), ("amp".toList, false)]

/-- The normalizer `cleanCompanyName`: `none` models the JavaScript `null`
(empty or blank input); otherwise lowercase, trim, run the three whole-word
removal passes, replace punctuation by spaces, collapse whitespace and trim.
The memo cache is keyed by the lowercased input and the computation depends
only on that key, so the cached function equals the pure one. -/
def cleanCompanyName (name : List Char) : Option (List Char) :=
  if trimWs name = [] then none
  else
    let n0 := trimWs (name.map Char.toLower)
    let n1 := replacePass pass1 n0
    let n2 := replacePass pass2 n1
    let n3 := replacePass pass3 n2
    some (trimWs (collapseWs (replaceNonWord n3)))

/-- Levenshtein distance with a fuel argument (the DP matrix of
`FuzzyMatcher.ratio` computes exactly this recurrence:
`matrix[i][j] = min(del, ins, subst)`).  The fuel, initialised to the sum
of the lengths, makes the recursion structural; it never runs out. -/
def levAux : Nat → List Char → List Char → Nat
  | _, [], ys => ys.length
  | _, x :: xs, [] => (x :: xs).length
  | 0, xs, ys => xs.length + ys.length
  | n + 1, x :: xs, y :: ys =>
    min (levAux n xs (y :: ys) + 1)
      (min (levAux n (x :: xs) ys + 1)
        (levAux n xs ys + (if x = y then 0 else 1)))

/-- Levenshtein distance between two character lists. -/
def lev (xs ys : List Char) : Nat :=
  levAux (xs.length + ys.length) xs ys

/-- `FuzzyMatcher.ratio`: 0 when either string is empty, else
`Math.round(((maxLen - distance) / maxLen) * 100)`, computed exactly:
`round(100*q/m) = (200*q + m) / (2*m)` in natural division. -/
def ratio (s1 s2 : List Char) : Nat :=
  if s1.isEmpty || s2.isEmpty then 0
  else
    let d := lev s1 s2
    let m := max s1.length s2.length
    (200 * (m - d) + m) / (2 * m)

/-- `FuzzyMatcher.partialRatio`: slide the shorter string across every
window of the longer string of the same length and take the best `ratio`. -/
def partialRatio (s1 s2 : List Char) : Nat :=
  if s1.isEmpty || s2.isEmpty then 0
  else
    let p := if s1.length ≤ s2.length then (s1, s2) else (s2, s1)
    ((List.range (p.2.length - p.1.length + 1)).map
      (fun i => ratio p.1 ((p.2.drop i).take p.1.length))).foldl max 0

/-- Lexicographic comparison of character lists by code point, the order
of JavaScript's default `Array.prototype.sort` on strings. -/
def strLe : List Char → List Char → Bool
  | [], _ => true
  | _ :: _, [] => false
  | x :: xs, y :: ys =>
    decide (x < y) || (decide (x = y) && strLe xs ys)

/-- Insert into a sorted list of strings, keeping stability. -/
def insertStr (x : List Char) : List (List Char) → List (List Char)
  | [] => [x]
  | y :: ys => if strLe x y then x :: y :: ys else y :: insertStr x ys

/-- Sort a list of strings (the result of `Array.prototype.sort`). -/
def sortStrs (l : List (List Char)) : List (List Char) :=
  l.foldr insertStr []

/-- Join tokens with single spaces (`join(' ')`). -/
def joinSp (l : List (List Char)) : List Char :=
  List.intercalate [' '] l

/-- Deduplicate keeping first occurrences (`new Set(...)` iterated in
insertion order). -/
def dedupKeepFirst (l : List (List Char)) : List (List Char) :=
  l.foldl (fun acc x => if acc.contains x then acc else acc ++ [x]) []

/-- `FuzzyMatcher.tokenSortRatio`: split on whitespace, sort each token
list, rejoin with spaces, compare with `ratio`. -/
def tokenSortRatio (s1 s2 : List Char) : Nat :=
  if s1.isEmpty || s2.isEmpty then 0
  else ratio (joinSp (sortStrs (splitWs s1))) (joinSp (sortStrs (splitWs s2)))

/-- `FuzzyMatcher.tokenSetRatio`: compare `sortedIntersection + ' ' +
sortedDifference` for the two token sets. -/
def tokenSetRatio (s1 s2 : List Char) : Nat :=
  if s1.isEmpty || s2.isEmpty then 0
  else
    let t1 := dedupKeepFirst (splitWs s1)
    let t2 := dedupKeepFirst (splitWs s2)
    let inter := t1.filter (fun x => t2.contains x)
    let d1 := t1.filter (fun x => !t2.contains x)
    let d2 := t2.filter (fun x => !t1.contains x)
    let si := joinSp (sortStrs inter)
    let c1 := trimWs (si ++ ' ' :: joinSp (sortStrs d1))
    let c2 := trimWs (si ++ ' ' :: joinSp (sortStrs d2))
    ratio c1 c2

/-- Substring test, JavaScript `String.prototype.includes`. -/
def containsSub (needle hay : List Char) : Bool :=
  match hay with
  | [] => needle.isEmpty
  | _ :: t => needle.isPrefixOf hay || containsSub needle t

/-- Scan the candidate's tokens for an abbreviation match of one input
token, in order (the inner `for keyWord of keyWords` loop with `break`):
`some true` when the input token is a prefix of a candidate token (counts
as significant when long enough), `some false` when a candidate token is a
prefix of the input token (never counts as significant), `none` when no
candidate token matches. -/
def scanKey (w : List Char) : List (List Char) → Option Bool
  | [] => none
  | kw :: rest =>
    if 3 ≤ w.length ∧ w.isPrefixOf kw then some true
    else if 3 ≤ kw.length ∧ kw.isPrefixOf w then some false
    else scanKey w rest

/-- One step of the word-overlap loop: update the pair
(matchedWords, significantMatches) for one input token. -/
def overlapOne (kws : List (List Char)) (st : Nat × Nat) (w : List Char) : Nat × Nat :=
  if kws.contains w then
    (st.1 + 1, if 3 < w.length then st.2 + 1 else st.2)
  else
    match scanKey w kws with
    | some true => (st.1 + 1, if 3 < w.length then st.2 + 1 else st.2)
    | some false => (st.1 + 1, st.2)
    | none => st

/-- The word-overlap pass of the scorer: (matchedWords, significantMatches)
over all input tokens. -/
def overlapCounts (iw kws : List (List Char)) : Nat × Nat :=
  iw.foldl (overlapOne kws) (0, 0)

/-- Steps 1–7 of the candidate scorer (everything before the acronym
block): base metric, word-overlap boosts and penalty, length-difference
penalty, first-token correlation and first-token prefix boost.  The
word-ratio thresholds are compared by cross multiplication:
`matched/total ≥ 0.8` is `5*matched ≥ 4*total`, and so on; when a
denominator is zero the JavaScript ratio is the number 0. -/
def scorePre (cn : List Char) (iw : List (List Char)) (ck : List Char) : Int :=
  let kw := splitWs ck
  let baseScore := tokenSortRatio cn ck
  let partial0 := partialRatio cn ck
  let partialScore := if ck.length ≤ 4 ∧ 80 < partial0 then min partial0 60 else partial0
  let tokenSetScore := tokenSetRatio cn ck
  let score0 : Int := max baseScore (max partialScore tokenSetScore)
  let counts := overlapCounts iw kw
  let matched := counts.1
  let sig := counts.2
  let total := iw.length
  let sigWords := (iw.filter (fun w => 3 < w.length)).length
  let wmrGe45 := decide (0 < total) && decide (4 * total ≤ 5 * matched)
  let smrGeHalf := decide (0 < sigWords) && decide (sigWords ≤ 2 * sig)
  let wmrGe710 := decide (0 < total) && decide (7 * total ≤ 10 * matched)
  let wmrGeHalf := decide (0 < total) && decide (total ≤ 2 * matched)
  let wmrLt310 := decide (total = 0) || decide (10 * matched < 3 * total)
  let score1 := if wmrGe45 && smrGeHalf then score0 + 40
    else if wmrGe710 then score0 + 30
    else if wmrGeHalf then score0 + 15
    else score0
  let score2 := if 2 ≤ total ∧ wmrLt310 then score1 - 25 else score1
  let lenDiff := max cn.length ck.length - min cn.length ck.length
  let score3 := if 10 < lenDiff then score2 - min 20 (lenDiff : Int) else score2
  let score4 :=
    if 0 < iw.length ∧ 0 < kw.length then
      let firstWordScore := ratio (iw.headD []) (kw.headD [])
      if firstWordScore < 60 then score3 - 20
      else if 90 ≤ firstWordScore then score3 + 10
      else score3
    else score3
  if 0 < iw.length ∧ 0 < kw.length then
    if iw.headD [] = kw.headD [] then score4 + 25
    else if 3 ≤ (iw.headD []).length ∧ (iw.headD []).isPrefixOf (kw.headD []) then score4 + 20
    else if 3 ≤ (kw.headD []).length ∧ (kw.headD []).isPrefixOf (iw.headD []) then score4 + 15
    else score4
  else score4

/-- The acronym block of the scorer (lines guarded by
`keyWords.length >= 2`): derive the candidate's acronym from its words
longer than 2 characters and adjust the score. -/
def acronymAdjust (iw : List (List Char)) (kw : List (List Char)) (score : Int) : Int :=
  if 2 ≤ kw.length then
    let acr := (kw.filter (fun w => 2 < w.length)).map (fun w => Char.toUpper (w.headD ' '))
    if iw.length = 1 ∧ 3 ≤ (iw.headD []).length then
      let inputWord := (iw.headD []).map Char.toUpper
      if inputWord = acr then max (score + 50) 95
      else if containsSub inputWord acr || inputWord.isPrefixOf acr then score + 30
      else if 3 ≤ inputWord.length ∧ inputWord.length ≤ 5 then score - 15
      else score
    else if 2 ≤ iw.length ∧ 3 ≤ (iw.headD []).length then
      let firstWord := (iw.headD []).map Char.toUpper
      if firstWord = acr then score + 45
      else if containsSub firstWord acr || firstWord.isPrefixOf acr then score + 25
      else score
    else score
  else score

/-- The full composite score of one candidate against the input. -/
def computeScore (cn : List Char) (iw : List (List Char)) (ck : List Char) : Int :=
  acronymAdjust iw (splitWs ck) (scorePre cn iw ck)

/-- The score the fuzzy loop sees for one reference entry: `none` when the
entry is skipped (`if (!cleanKey) continue`, i.e. its cleaned name is null
or empty). -/
def entryScore (cn : List Char) (iw : List (List Char)) (key : List Char) : Option Int :=
  match cleanCompanyName key with
  | none => none
  | some ck => if ck.isEmpty then none else some (computeScore cn iw ck)

/-- The fuzzy-strategy loop: fold over the entries updating
(bestMatch, bestScore); an entry replaces the best only when its score is
strictly greater and at least the minimum threshold 70. -/
def fuzzyScan (cn : List Char) (iw : List (List Char)) :
    List (List Char × String) → Option (List Char) × Int → Option (List Char) × Int
  | [], st => st
  | (key, _) :: rest, (bm, bs) =>
    match entryScore cn iw key with
    | none => fuzzyScan cn iw rest (bm, bs)
    | some s =>
      if bs < s ∧ 70 ≤ s then fuzzyScan cn iw rest (some key, s)
      else fuzzyScan cn iw rest (bm, bs)

/-- Association-list lookup by full name, `tickerDict[bestMatch]`. -/
def lookupStr (k : List Char) : List (List Char × String) → Option String
  | [] => none
  | (k', v) :: rest => if k = k' then some v else lookupStr k rest

/-- The sentinel check of the resolver: empty or blank input, or an input
containing "Cash" or "Equity" as a case-sensitive substring. -/
def sentinelSkip (input : List Char) : Bool :=
  decide (trimWs input = []) || containsSub "Cash".toList input || containsSub "Equity".toList input

/-- Strategy 1, exact match: the first entry whose cleaned full name
equals the cleaned input. -/
def exactScan (cn : List Char) : List (List Char × String) → Option String
  | [] => none
  | (key, t) :: rest =>
    if cleanCompanyName key = some cn then some t else exactScan cn rest

/-- Strategy 1.5, direct name match: the first entry whose uppercased raw
full name contains the uppercased input surrounded by spaces, or starts
with it followed by a space. -/
def directScan (cn : List Char) : List (List Char × String) → Option String
  | [] => none
  | (key, t) :: rest =>
    let keyUpper := key.map Char.toUpper
    let inputUpper := cn.map Char.toUpper
    if containsSub (' ' :: inputUpper ++ [' ']) keyUpper ||
        (inputUpper ++ [' ']).isPrefixOf keyUpper then some t
    else directScan cn rest

/-- The three strategies run in priority order on a cleaned input that
passed the guards (the body of `findTicker` past the cache lookup). -/
def resolveStrategies (cn : List Char) (dict : List (List Char × String)) : String :=
  let iw := splitWs cn
  match exactScan cn dict with
  | some t => t
  | none =>
    match (if iw.length = 1 ∧ 3 ≤ cn.length then directScan cn dict else none) with
    | some t => t
    | none =>
      match (fuzzyScan cn iw dict (none, 0)).1 with
      | some k => (lookupStr k dict).getD ""
      | none => ""

/-- The resolver `findTicker` with the resolution cache left implicit (the
value computed on a cache miss): sentinel check, normalization, length
guard, then the three strategies. -/
def findTicker (input : List Char) (dict : List (List Char × String)) : String :=
  if sentinelSkip input then ""
  else
    match cleanCompanyName input with
    | none => ""
    | some cn => if cn.length ≤ 2 then "" else resolveStrategies cn dict

/-- A resolution-cache key: the cleaned input together with the sorted
list of the mapping's full names (the JSON fingerprint
`cleanName + ':' + JSON.stringify(Object.keys(tickerDict).sort())` is an
injective rendering of this pair, since a cleaned name holds no colon). -/
def sortedKeys (dict : List (List Char × String)) : List (List Char) :=
  sortStrs (dict.map (fun e => e.1))

/-- Lookup in the explicit resolution cache. -/
def lookupCache (k : List Char × List (List Char)) :
    List ((List Char × List (List Char)) × String) → Option String
  | [] => none
  | (k', v) :: rest => if k = k' then some v else lookupCache k rest

/-- The resolver `findTicker` with the resolution cache made explicit:
returns the result and the cache after the call.  Every return path past
the cache lookup stores the returned value under the key. -/
def findTickerC (input : List Char) (dict : List (List Char × String))
    (cache : List ((List Char × List (List Char)) × String)) :
    String × List ((List Char × List (List Char)) × String) :=
  if sentinelSkip input then ("", cache)
  else
    match cleanCompanyName input with
    | none => ("", cache)
    | some cn =>
      if cn.length ≤ 2 then ("", cache)
      else
        let ckey := (cn, sortedKeys dict)
        match lookupCache ckey cache with
        | some v => (v, cache)
        | none =>
          let r := resolveStrategies cn dict
          (r, (ckey, r) :: cache)

/-- The significant-match count as claim C7 words it: every matched input
token longer than 3 characters counts, irrespective of which matching rule
established the match.  Stated from the claim for comparison with
`overlapCounts`. -/
def claimedSignificantCount (iw kws : List (List Char)) : Nat :=
  iw.countP (fun w => decide (3 < w.length) &&
    (kws.contains w || (scanKey w kws).isSome))

/-! ## Lemmas about the Levenshtein distance -/

lemma levAux_self : ∀ (n : Nat) (a : List Char), 2 * a.length ≤ n → levAux n a a = 0 := by
  intro n
  induction n with
  | zero =>
    intro a h
    cases a with
    | nil => rfl
    | cons x xs => simp only [List.length_cons] at h; omega
  | succ m ih =>
    intro a h
    cases a with
    | nil => rfl
    | cons x xs =>
      have hx : levAux m xs xs = 0 := by
        apply ih
        simp only [List.length_cons] at h
        omega
      simp [levAux, hx]

lemma levAux_symm : ∀ (n : Nat) (xs ys : List Char), levAux n xs ys = levAux n ys xs := by
  intro n
  induction n with
  | zero =>
    intro xs ys
    cases xs <;> cases ys <;> (simp [levAux]; try omega)
  | succ m ih =>
    intro xs ys
    cases xs with
    | nil => cases ys <;> simp [levAux]
    | cons x xs' =>
      cases ys with
      | nil => simp [levAux]
      | cons y ys' =>
        simp only [levAux]
        rw [ih ys' (x :: xs'), ih (y :: ys') xs', ih ys' xs']
        by_cases hxy : x = y
        · subst hxy
          simp only [if_pos rfl]
          rw [min_left_comm]
        · rw [if_neg hxy, if_neg (fun h => hxy h.symm)]
          rw [min_left_comm]

lemma lev_self_eq_zero (a : List Char) : lev a a = 0 :=
  levAux_self _ a (by omega)

lemma lev_symm (a b : List Char) : lev a b = lev b a := by
  unfold lev
  rw [levAux_symm, Nat.add_comm b.length a.length]

/-! ## The claims -/

/-- C9: `ratio(a, a) = 100` for every non-empty `a`, and `ratio` is
symmetric in its two arguments. -/
theorem ratio_self_and_symm :
    (∀ a : List Char, a ≠ [] → ratio a a = 100) ∧
    (∀ a b : List Char, ratio a b = ratio b a) := by
  constructor
  · intro a ha
    obtain ⟨x, xs, rfl⟩ : ∃ x xs, a = x :: xs := by
      cases a with
      | nil => exact absurd rfl ha
      | cons x xs => exact ⟨x, xs, rfl⟩
    simp only [ratio, List.isEmpty_cons, Bool.or_self, Bool.false_eq_true, if_false,
      lev_self_eq_zero, Nat.sub_zero, Nat.max_self]
    have h1 : 200 * (x :: xs).length + (x :: xs).length
        = (x :: xs).length + 2 * (x :: xs).length * 100 := by ring
    rw [h1, Nat.add_mul_div_left _ _ (by simp : 0 < 2 * (x :: xs).length),
      Nat.div_eq_of_lt (by simp), Nat.zero_add]
  · intro a b
    simp only [ratio]
    rw [lev_symm a b, Nat.max_comm a.length b.length, Bool.or_comm]

/-- C9 witness at concrete inputs. -/
theorem ratio_self_and_symm_witness :
    ratio "ab".toList "ab".toList = 100 ∧
    ratio "ab".toList "xyz".toList = ratio "xyz".toList "ab".toList :=
  ⟨ratio_self_and_symm.1 "ab".toList (by decide), ratio_self_and_symm.2 _ _⟩

/-- C10: the normalizer returns `none` (the JavaScript `null`) exactly for
inputs that are empty or trim to empty; an input that survives the guard
always yields a string, and one whose content is entirely stripped yields
the empty string, not `null` (witnessed by "Ltd."). -/
theorem clean_none_iff :
    (∀ s : List Char, cleanCompanyName s = none ↔ trimWs s = []) ∧
    cleanCompanyName "Ltd.".toList = some [] := by
  constructor
  · intro s
    constructor
    · intro h
      by_contra hne
      simp [cleanCompanyName, hne] at h
    · intro h
      simp [cleanCompanyName, h]
  · decide

/-- C10 witness: the empty input maps to `none`. -/
theorem clean_none_iff_witness : cleanCompanyName [] = none :=
  (clean_none_iff.1 []).mpr (by decide)

/-- C3: an input that is empty, blank, or contains "Cash" or "Equity" as a
case-sensitive substring makes the resolver return the empty string at
once, for every mapping and every cache, leaving the cache untouched. -/
theorem sentinel_skip_spec (input : List Char) (dict : List (List Char × String))
    (cache : List ((List Char × List (List Char)) × String))
    (h : trimWs input = [] ∨ containsSub "Cash".toList input = true ∨
      containsSub "Equity".toList input = true) :
    findTickerC input dict cache = ("", cache) := by
  have hs : sentinelSkip input = true := by
    unfold sentinelSkip
    rcases h with h | h | h
    · simp [h]
    · rw [h]; simp
    · rw [h]; simp
  simp [findTickerC, hs]

/-- C3 witness: "Equity Cash" against a non-empty mapping. -/
theorem sentinel_skip_spec_witness :
    findTickerC "Equity Cash".toList [("Apple Inc.".toList, "AAPL")] [] = ("", []) :=
  sentinel_skip_spec _ _ _ (Or.inr (Or.inl (by decide)))

/-- C4 (amended): two successive calls of the resolver with the same
mapping return identical results — on a cache miss every return path
stores the returned value under the computed key, and the second call is
served from it; on a hit the cache is left unchanged.  (As stated the
claim fails: the cache key ignores the mapping's identifier values, see
the counterexample.) -/
theorem resolver_repeat_deterministic (input : List Char)
    (dict : List (List Char × String))
    (cache : List ((List Char × List (List Char)) × String)) :
    (findTickerC input dict (findTickerC input dict cache).2).1 =
      (findTickerC input dict cache).1 := by
  by_cases hs : sentinelSkip input = true
  · simp [findTickerC, hs]
  · rcases hcn : cleanCompanyName input with _ | cn
    · simp [findTickerC, hs, hcn]
    · by_cases hlen : cn.length ≤ 2
      · simp [findTickerC, hs, hcn, hlen]
      · rcases hl : lookupCache (cn, sortedKeys dict) cache with _ | v
        · simp [findTickerC, hs, hcn, hlen, hl, lookupCache]
        · simp [findTickerC, hs, hcn, hlen, hl]

/-- C4 counterexample: the cache key is (cleaned input, sorted full
names) and ignores the identifiers, so a resolution cached for the
mapping `{"ab cd": "T1"}` is returned verbatim for the distinct mapping
`{"ab cd": "T2"}`; two calls with the very same mapping but different
prior caches return different results, so resolution is not a pure
function of (input, mapping). -/
theorem resolver_cache_cex :
    (findTickerC "ab cd".toList [("ab cd".toList, "T2")]
      ((findTickerC "ab cd".toList [("ab cd".toList, "T1")] []).2)).1 = "T1" ∧
    (findTickerC "ab cd".toList [("ab cd".toList, "T2")] []).1 = "T2" ∧
    ("T1" : String) ≠ "T2" := by
  refine ⟨?_, ?_, by decide⟩ <;> decide

/-- Strategy 1 returns the identifier of the first entry whose cleaned
full name equals the cleaned input. -/
lemma exactScan_eq_of_first (cn : List Char) :
    ∀ (dict : List (List Char × String)) (i : Nat) (k : List Char) (t : String),
    dict[i]? = some (k, t) → cleanCompanyName k = some cn →
    (∀ j, j < i → ∀ kj tj, dict[j]? = some (kj, tj) → cleanCompanyName kj ≠ some cn) →
    exactScan cn dict = some t := by
  intro dict
  induction dict with
  | nil => intro i k t hi; simp at hi
  | cons e rest ih =>
    intro i k t hi hk hfirst
    obtain ⟨key, t0⟩ := e
    by_cases hke : cleanCompanyName key = some cn
    · cases i with
      | zero =>
        simp only [List.getElem?_cons_zero, Option.some_inj, Prod.mk.injEq] at hi
        simp [exactScan, hke, hi.2]
      | succ i' =>
        exact absurd hke
          (hfirst 0 (Nat.succ_pos _) key t0 (by simp))
    · cases i with
      | zero =>
        simp only [List.getElem?_cons_zero, Option.some_inj, Prod.mk.injEq] at hi
        rw [hi.1] at hke
        exact absurd hk hke
      | succ i' =>
        simp only [exactScan, if_neg hke]
        exact ih i' k t (by simpa using hi) hk
          (fun j hj kj tj hj2 =>
            hfirst (j + 1) (by omega) kj tj (by simpa using hj2))

/-- C1 (amended): provided the input passes the sentinel and length
guards, the resolver returns the identifier of the first entry in mapping
order whose normalized full name equals the input's normalized name,
before any fuzzy scoring is consulted.  (As stated the claim fails for
sentinel inputs, see the counterexample.) -/
theorem exact_match_precedence (input cn k : List Char) (t : String)
    (dict : List (List Char × String)) (i : Nat)
    (hs : sentinelSkip input = false)
    (hc : cleanCompanyName input = some cn)
    (hl : 2 < cn.length)
    (hi : dict[i]? = some (k, t))
    (hk : cleanCompanyName k = some cn)
    (hfirst : ∀ j, j < i → ∀ kj tj, dict[j]? = some (kj, tj) →
      cleanCompanyName kj ≠ some cn) :
    findTicker input dict = t := by
  have he : exactScan cn dict = some t := exactScan_eq_of_first cn dict i k t hi hk hfirst
  have hl2 : ¬(cn.length ≤ 2) := by omega
  simp [findTicker, hs, hc, hl2, resolveStrategies, he]

/-- C1 witness: the exact match wins against a mapping where a later
entry also exists. -/
theorem exact_match_precedence_witness :
    findTicker "Zeta".toList [("Zeta Ltd".toList, "Z"), ("Alpha".toList, "A")] = "Z" :=
  exact_match_precedence "Zeta".toList "zeta".toList "Zeta Ltd".toList "Z"
    [("Zeta Ltd".toList, "Z"), ("Alpha".toList, "A")] 0
    (by decide) (by decide) (by decide) (by decide) (by decide)
    (fun j hj _ _ _ => absurd hj (Nat.not_lt_zero j))

/-- C1 counterexample: for the raw input "Cash" the sentinel check fires
first, so the resolver returns "" even though the mapping's first entry
has the same normalized full name ("cash") as the input. -/
theorem exact_match_cex :
    findTicker "Cash".toList [("Cash".toList, "T")] = "" ∧
    cleanCompanyName "Cash".toList = some "cash".toList ∧
    ("" : String) ≠ "T" := by
  refine ⟨by decide, by decide, by decide⟩

/-- One step of the word-overlap fold counts one significant match exactly
when the token is long (> 3) and matched verbatim or by the
input-token-is-prefix rule. -/
lemma overlap_fold_sig (kws : List (List Char)) :
    ∀ (iw : List (List Char)) (st : Nat × Nat),
    (iw.foldl (overlapOne kws) st).2 =
      st.2 + iw.countP (fun w => decide (3 < w.length) &&
        (kws.contains w || decide (scanKey w kws = some true))) := by
  intro iw
  induction iw with
  | nil => intro st; simp
  | cons w iw ih =>
    intro st
    simp only [List.foldl_cons, List.countP_cons]
    rw [ih]
    have hone : (overlapOne kws st w).2 = st.2 +
        (if (decide (3 < w.length) &&
          (kws.contains w || decide (scanKey w kws = some true))) = true
        then 1 else 0) := by
      unfold overlapOne
      by_cases hm : w ∈ kws
      · have hc : kws.contains w = true := by simpa using hm
        by_cases h3 : 3 < w.length <;> simp [hm, hc, h3]
      · have hc : kws.contains w = false := by simpa using hm
        rcases hsk : scanKey w kws with _ | b
        · simp [hsk, hm, hc]
        · cases b
          · simp [hsk, hm, hc]
          · by_cases h3 : 3 < w.length <;> simp [hsk, hm, hc, h3]
    rw [hone]
    omega

/-- C7 (amended): the significant-match count of the word-overlap pass
equals the number of input tokens longer than 3 characters whose match
came from the verbatim rule or from the input-token-is-prefix-of-candidate
rule; a token matched only by the candidate-token-is-prefix-of-input rule
is not counted (see the counterexample against the claim as stated). -/
theorem significant_count_rule (iw kws : List (List Char)) :
    (overlapCounts iw kws).2 =
      iw.countP (fun w => decide (3 < w.length) &&
        (kws.contains w || decide (scanKey w kws = some true))) := by
  unfold overlapCounts
  rw [overlap_fold_sig]
  simp

/-- C7 counterexample: the input token "abcd" (length 4) matches the
candidate token "abc" only via the candidate-token-is-prefix rule; it is
counted as matched but not as significant, while the claim counts it. -/
theorem significant_count_cex :
    (overlapCounts [ "abcd".toList ] [ "abc".toList ]) = (1, 0) ∧
    claimedSignificantCount [ "abcd".toList ] [ "abc".toList ] = 1 := by
  refine ⟨by decide, by decide⟩

/-- C6 (amended): when the candidate's tokenized normalized name has fewer
than 2 tokens, the acronym block is skipped and the final score equals the
sum of steps 1–7.  The source gates the block on the total token count,
not on the count of qualifying words (length > 2); with at least 2 tokens
but fewer than 2 qualifying words the block still runs (see the
counterexample). -/
theorem acronym_skip_short_keywords (cn : List Char) (iw : List (List Char))
    (ck : List Char) (h : (splitWs ck).length < 2) :
    computeScore cn iw ck = scorePre cn iw ck := by
  unfold computeScore acronymAdjust
  rw [if_neg (by omega)]

/-- C6 witness: a one-token candidate gets no acronym adjustment. -/
theorem acronym_skip_short_keywords_witness :
    computeScore "xy".toList (splitWs "xy".toList) "ab".toList =
      scorePre "xy".toList (splitWs "xy".toList) "ab".toList :=
  acronym_skip_short_keywords "xy".toList (splitWs "xy".toList) "ab".toList (by decide)

/-- C6 counterexample: the candidate "ab cd" has two tokens but zero
qualifying words (length > 2), yet the acronym block runs and subtracts
15 from the score of the single-token input "abc". -/
theorem acronym_gate_cex :
    ((splitWs "ab cd".toList).filter (fun w => 2 < w.length)).length = 0 ∧
    computeScore "abc".toList (splitWs "abc".toList) "ab cd".toList =
      scorePre "abc".toList (splitWs "abc".toList) "ab cd".toList - 15 := by
  refine ⟨by decide, by decide⟩

/-- Invariant of the fuzzy-strategy fold, successful case: when the scan
of `l` from state (bm, bs) ends on a best match, the result either is the
initial state (and no entry of `l` beats it), or comes from an entry of
`l` with a score at least 70, strictly above the initial score, strictly
above every earlier entry's score and at least every entry's score. -/
lemma fuzzyScan_some_spec (cn : List Char) (iw : List (List Char)) :
    ∀ (l : List (List Char × String)) (bm : Option (List Char)) (bs : Int)
      (k : List Char) (s : Int),
    (∀ k0, bm = some k0 → 70 ≤ bs) →
    fuzzyScan cn iw l (bm, bs) = (some k, s) →
    70 ≤ s ∧ bs ≤ s ∧
    ((bm = some k ∧ bs = s ∧
       (∀ (j : Nat) (kj : List Char) (tj : String) (sj : Int),
         l[j]? = some (kj, tj) → entryScore cn iw kj = some sj → sj ≤ s)) ∨
     (∃ (i : Nat) (t : String), l[i]? = some (k, t) ∧ entryScore cn iw k = some s ∧ bs < s ∧
       (∀ (j : Nat) (kj : List Char) (tj : String) (sj : Int), j < i → l[j]? = some (kj, tj) →
         entryScore cn iw kj = some sj → sj < s) ∧
       (∀ (j : Nat) (kj : List Char) (tj : String) (sj : Int), l[j]? = some (kj, tj) →
         entryScore cn iw kj = some sj → sj ≤ s))) := by
  intro l
  induction l with
  | nil =>
    intro bm bs k s hinv h
    simp only [fuzzyScan, Prod.mk.injEq] at h
    obtain ⟨h1, h2⟩ := h
    subst h2
    have h70 := hinv k h1
    exact ⟨h70, le_refl _, Or.inl ⟨h1, rfl, by intro j kj tj sj hj; simp at hj⟩⟩
  | cons e rest ih =>
    intro bm bs k s hinv h
    obtain ⟨key, t0⟩ := e
    rcases hes : entryScore cn iw key with _ | s0
    · simp only [fuzzyScan, hes] at h
      obtain ⟨h70, hbs, hcase⟩ := ih bm bs k s hinv h
      refine ⟨h70, hbs, ?_⟩
      rcases hcase with ⟨h1, h2, h3⟩ | ⟨i, t, hi, hsc, hblt, hlt, hall⟩
      · left
        refine ⟨h1, h2, ?_⟩
        intro j kj tj sj hj hsj
        cases j with
        | zero =>
          simp only [List.getElem?_cons_zero, Option.some_inj, Prod.mk.injEq] at hj
          rw [← hj.1] at hsj
          rw [hes] at hsj
          cases hsj
        | succ j' => exact h3 j' kj tj sj (by simpa using hj) hsj
      · right
        refine ⟨i + 1, t, by simpa using hi, hsc, hblt, ?_, ?_⟩
        · intro j kj tj sj hjlt hj hsj
          cases j with
          | zero =>
            simp only [List.getElem?_cons_zero, Option.some_inj, Prod.mk.injEq] at hj
            rw [← hj.1] at hsj
            rw [hes] at hsj
            cases hsj
          | succ j' => exact hlt j' kj tj sj (by omega) (by simpa using hj) hsj
        · intro j kj tj sj hj hsj
          cases j with
          | zero =>
            simp only [List.getElem?_cons_zero, Option.some_inj, Prod.mk.injEq] at hj
            rw [← hj.1] at hsj
            rw [hes] at hsj
            cases hsj
          | succ j' => exact hall j' kj tj sj (by simpa using hj) hsj
    · simp only [fuzzyScan, hes] at h
      by_cases hcnd : bs < s0 ∧ 70 ≤ s0
      · rw [if_pos hcnd] at h
        obtain ⟨h70, hs0s, hcase⟩ :=
          ih (some key) s0 k s (fun _ _ => hcnd.2) h
        rcases hcase with ⟨hbmk, hbss, hall⟩ | ⟨i, t, hi, hsc, hblt, hlt, hall⟩
        · have hkey : key = k := by injection hbmk
          subst hkey
          subst hbss
          refine ⟨h70, le_of_lt hcnd.1, Or.inr ⟨0, t0, by simp, hes, hcnd.1, ?_, ?_⟩⟩
          · intro j kj tj sj hjlt hj hsj
            omega
          · intro j kj tj sj hj hsj
            cases j with
            | zero =>
              simp only [List.getElem?_cons_zero, Option.some_inj, Prod.mk.injEq] at hj
              rw [← hj.1] at hsj
              rw [hes] at hsj
              injection hsj with hsj
              omega
            | succ j' => exact hall j' kj tj sj (by simpa using hj) hsj
        · refine ⟨h70, by omega, Or.inr ⟨i + 1, t, by simpa using hi, hsc, by omega, ?_, ?_⟩⟩
          · intro j kj tj sj hjlt hj hsj
            cases j with
            | zero =>
              simp only [List.getElem?_cons_zero, Option.some_inj, Prod.mk.injEq] at hj
              rw [← hj.1] at hsj
              rw [hes] at hsj
              injection hsj with hsj
              omega
            | succ j' => exact hlt j' kj tj sj (by omega) (by simpa using hj) hsj
          · intro j kj tj sj hj hsj
            cases j with
            | zero =>
              simp only [List.getElem?_cons_zero, Option.some_inj, Prod.mk.injEq] at hj
              rw [← hj.1] at hsj
              rw [hes] at hsj
              injection hsj with hsj
              omega
            | succ j' => exact hall j' kj tj sj (by simpa using hj) hsj
      · rw [if_neg hcnd] at h
        push_neg at hcnd
        obtain ⟨h70, hbs, hcase⟩ := ih bm bs k s hinv h
        have hs0le : s0 ≤ s := by
          rcases le_or_lt s0 bs with h' | h'
          · omega
          · have := hcnd h'
            omega
        refine ⟨h70, hbs, ?_⟩
        rcases hcase with ⟨h1, h2, h3⟩ | ⟨i, t, hi, hsc, hblt, hlt, hall⟩
        · left
          refine ⟨h1, h2, ?_⟩
          intro j kj tj sj hj hsj
          cases j with
          | zero =>
            simp only [List.getElem?_cons_zero, Option.some_inj, Prod.mk.injEq] at hj
            rw [← hj.1] at hsj
            rw [hes] at hsj
            injection hsj with hsj
            omega
          | succ j' => exact h3 j' kj tj sj (by simpa using hj) hsj
        · right
          have hs0lt : s0 < s := by
            rcases le_or_lt s0 bs with h' | h'
            · omega
            · have := hcnd h'
              omega
          refine ⟨i + 1, t, by simpa using hi, hsc, hblt, ?_, ?_⟩
          · intro j kj tj sj hjlt hj hsj
            cases j with
            | zero =>
              simp only [List.getElem?_cons_zero, Option.some_inj, Prod.mk.injEq] at hj
              rw [← hj.1] at hsj
              rw [hes] at hsj
              injection hsj with hsj
              omega
            | succ j' => exact hlt j' kj tj sj (by omega) (by simpa using hj) hsj
          · intro j kj tj sj hj hsj
            cases j with
            | zero =>
              simp only [List.getElem?_cons_zero, Option.some_inj, Prod.mk.injEq] at hj
              rw [← hj.1] at hsj
              rw [hes] at hsj
              injection hsj with hsj
              omega
            | succ j' => exact hall j' kj tj sj (by simpa using hj) hsj

/-- Invariant of the fuzzy-strategy fold, empty case: a scan that ends
with no best match started with none, left the best score unchanged, and
saw no entry whose score beats the threshold and the running best. -/
lemma fuzzyScan_none_spec (cn : List Char) (iw : List (List Char)) :
    ∀ (l : List (List Char × String)) (bm : Option (List Char)) (bs : Int) (s' : Int),
    fuzzyScan cn iw l (bm, bs) = (none, s') →
    bm = none ∧ s' = bs ∧
    (∀ (j : Nat) (kj : List Char) (tj : String) (sj : Int),
      l[j]? = some (kj, tj) → entryScore cn iw kj = some sj →
      sj ≤ bs ∨ sj < 70) := by
  intro l
  induction l with
  | nil =>
    intro bm bs s' h
    simp only [fuzzyScan, Prod.mk.injEq] at h
    exact ⟨h.1, h.2.symm, by intro j kj tj sj hj; simp at hj⟩
  | cons e rest ih =>
    intro bm bs s' h
    obtain ⟨key, t0⟩ := e
    rcases hes : entryScore cn iw key with _ | s0
    · simp only [fuzzyScan, hes] at h
      obtain ⟨h1, h2, h3⟩ := ih bm bs s' h
      refine ⟨h1, h2, ?_⟩
      intro j kj tj sj hj hsj
      cases j with
      | zero =>
        simp only [List.getElem?_cons_zero, Option.some_inj, Prod.mk.injEq] at hj
        rw [← hj.1] at hsj
        rw [hes] at hsj
        cases hsj
      | succ j' => exact h3 j' kj tj sj (by simpa using hj) hsj
    · simp only [fuzzyScan, hes] at h
      by_cases hcnd : bs < s0 ∧ 70 ≤ s0
      · rw [if_pos hcnd] at h
        obtain ⟨h1, _, _⟩ := ih (some key) s0 s' h
        cases h1
      · rw [if_neg hcnd] at h
        push_neg at hcnd
        obtain ⟨h1, h2, h3⟩ := ih bm bs s' h
        refine ⟨h1, h2, ?_⟩
        intro j kj tj sj hj hsj
        cases j with
        | zero =>
          simp only [List.getElem?_cons_zero, Option.some_inj, Prod.mk.injEq] at hj
          rw [← hj.1] at hsj
          rw [hes] at hsj
          injection hsj with hsj
          rcases le_or_lt s0 bs with h' | h'
          · exact Or.inl (by omega)
          · have := hcnd h'
            exact Or.inr (by omega)
        | succ j' => exact h3 j' kj tj sj (by simpa using hj) hsj

/-- C2: the scored-fuzzy strategy, started from (no best, score 0), never
returns a candidate whose score is below 70; a returned candidate's score
is at least 70, strictly exceeds every earlier entry's score (so ties keep
the earliest entry) and is at least every entry's score; and when no
candidate is returned, every scored entry was below 70 — hence an entry
scoring exactly 70 is eligible. -/
theorem fuzzy_threshold_and_ties (cn : List Char) (iw : List (List Char))
    (dict : List (List Char × String)) :
    (∀ (k : List Char) (s : Int), fuzzyScan cn iw dict (none, 0) = (some k, s) →
      70 ≤ s ∧ ∃ (i : Nat) (t : String), dict[i]? = some (k, t) ∧
        entryScore cn iw k = some s ∧
        (∀ (j : Nat) (kj : List Char) (tj : String) (sj : Int), j < i →
          dict[j]? = some (kj, tj) → entryScore cn iw kj = some sj → sj < s) ∧
        (∀ (j : Nat) (kj : List Char) (tj : String) (sj : Int),
          dict[j]? = some (kj, tj) → entryScore cn iw kj = some sj → sj ≤ s)) ∧
    (∀ s' : Int, fuzzyScan cn iw dict (none, 0) = (none, s') →
      ∀ (j : Nat) (kj : List Char) (tj : String) (sj : Int),
        dict[j]? = some (kj, tj) → entryScore cn iw kj = some sj →
        sj < 70) := by
  constructor
  · intro k s h
    obtain ⟨h70, _, hcase⟩ :=
      fuzzyScan_some_spec cn iw dict none 0 k s (fun k0 h0 => by cases h0) h
    rcases hcase with ⟨h1, _⟩ | ⟨i, t, hi, hsc, _, hlt, hall⟩
    · cases h1
    · exact ⟨h70, i, t, hi, hsc, hlt, hall⟩
  · intro s' h j kj tj sj hj hsj
    obtain ⟨_, _, hall⟩ := fuzzyScan_none_spec cn iw dict none 0 s' h
    rcases hall j kj tj sj hj hsj with h' | h' <;> omega

/-- C2 witness: a concrete scan returning a candidate, whose score 165 is
certified by the theorem to be at least the threshold. -/
theorem fuzzy_threshold_and_ties_witness :
    fuzzyScan "ab cd".toList (splitWs "ab cd".toList)
      [("ab cd".toList, "T")] (none, 0) = (some "ab cd".toList, 165) ∧
    (70 : Int) ≤ 165 := by
  have h : fuzzyScan "ab cd".toList (splitWs "ab cd".toList)
      [("ab cd".toList, "T")] (none, 0) = (some "ab cd".toList, 165) := by decide
  exact ⟨h, ((fuzzy_threshold_and_ties "ab cd".toList (splitWs "ab cd".toList)
    [("ab cd".toList, "T")]).1 "ab cd".toList 165 h).1⟩

/-! ## Lemmas about normalization: character classes, collapsing, trimming -/

lemma stripLit_eq : ∀ (w s r : List Char), stripLit w s = some r → s = w ++ r := by
  intro w
  induction w with
  | nil => intro s r h; cases h; rfl
  | cons c w ih =>
    intro s r h
    cases s with
    | nil => cases h
    | cons d s' =>
      by_cases hcd : c = d
      · subst hcd
        simp only [stripLit, if_pos rfl] at h
        simpa using ih s' r h
      · simp only [stripLit, if_neg hcd] at h
        cases h

lemma tryDotPart_strip (s lit : List Char) (lc : Char) (rest : List Char)
    (h : tryDotPart s lit = some (lc, rest)) : s = (lit ++ ['.']) ++ rest := by
  revert h
  rcases hs : stripLit (lit ++ ['.']) s with _ | r
  · intro h
    simp [tryDotPart, hs] at h
  · intro h
    simp only [tryDotPart, hs] at h
    by_cases hb : boundaryB (some '.') r.head? = true
    · rw [if_pos hb] at h
      injection h with h
      rw [Prod.mk.injEq] at h
      rw [← h.2]
      exact stripLit_eq _ _ _ hs
    · rw [if_neg hb] at h
      cases h

lemma tryPlainPart_strip (s lit : List Char) (lc : Char) (rest : List Char)
    (h : tryPlainPart s lit = some (lc, rest)) : s = lit ++ rest := by
  revert h
  rcases hs : stripLit lit s with _ | r
  · intro h
    simp [tryPlainPart, hs] at h
  · intro h
    simp only [tryPlainPart, hs] at h
    by_cases hb : boundaryB (some (lit.getLastD ' ')) r.head? = true
    · rw [if_pos hb] at h
      injection h with h
      rw [Prod.mk.injEq] at h
      rw [← h.2]
      exact stripLit_eq _ _ _ hs
    · rw [if_neg hb] at h
      cases h

lemma tryOne_mem (s lit : List Char) (dot : Bool) (lc : Char) (rest : List Char)
    (h : tryOne s lit dot = some (lc, rest)) : ∀ c ∈ rest, c ∈ s := by
  unfold tryOne at h
  rcases hd : (if dot then tryDotPart s lit else none) with _ | p
  · rw [hd] at h
    simp only [Option.orElse] at h
    have hs := tryPlainPart_strip s lit lc rest h
    intro c hc
    rw [hs]
    exact List.mem_append_right _ hc
  · rw [hd] at h
    simp only [Option.orElse] at h
    injection h with h
    subst h
    by_cases hdot : dot = true
    · rw [if_pos hdot] at hd
      have hs := tryDotPart_strip s lit lc rest hd
      intro c hc
      rw [hs]
      exact List.mem_append_right _ hc
    · rw [if_neg hdot] at hd
      cases hd

lemma tryAlts_mem : ∀ (alts : List (List Char × Bool)) (s : List Char)
    (lc : Char) (rest : List Char),
    tryAlts alts s = some (lc, rest) → ∀ c ∈ rest, c ∈ s := by
  intro alts
  induction alts with
  | nil => intro s lc rest h; cases h
  | cons a alts ih =>
    intro s lc rest h
    obtain ⟨lit, dot⟩ := a
    unfold tryAlts at h
    rcases h1 : tryOne s lit dot with _ | p
    · rw [h1] at h
      simp only [Option.orElse] at h
      exact ih s lc rest h
    · rw [h1] at h
      simp only [Option.orElse] at h
      injection h with h
      subst h
      exact tryOne_mem s lit dot lc rest h1

lemma scanRep_mem (alts : List (List Char × Bool)) :
    ∀ (n : Nat) (prev : Option Char) (s : List Char),
    ∀ c ∈ scanRep alts n prev s, c ∈ s := by
  intro n
  induction n with
  | zero =>
    intro prev s c hc
    cases s with
    | nil => simp [scanRep] at hc
    | cons d s' => simpa [scanRep] using hc
  | succ m ih =>
    intro prev s c hc
    cases s with
    | nil => simp [scanRep] at hc
    | cons d s' =>
      simp only [scanRep] at hc
      by_cases hb : boundaryB prev (some d) = true
      · rw [if_pos hb] at hc
        rcases ht : tryAlts alts (d :: s') with _ | p
        · rw [ht] at hc
          rcases List.mem_cons.mp hc with h' | h'
          · simp [h']
          · exact List.mem_cons_of_mem _ (ih (some d) s' c h')
        · obtain ⟨lc, rest⟩ := p
          rw [ht] at hc
          exact tryAlts_mem alts (d :: s') lc rest ht c (ih (some lc) rest c hc)
      · rw [if_neg hb] at hc
        rcases List.mem_cons.mp hc with h' | h'
        · simp [h']
        · exact List.mem_cons_of_mem _ (ih (some d) s' c h')

lemma replacePass_mem (alts : List (List Char × Bool)) (s : List Char) :
    ∀ c ∈ replacePass alts s, c ∈ s :=
  scanRep_mem alts s.length none s

lemma replaceNonWord_word_or_space (s : List Char) :
    ∀ c ∈ replaceNonWord s, isWordChar c = true ∨ isSpaceChar c = true := by
  intro c hc
  obtain ⟨d, _, hd⟩ := List.mem_map.mp hc
  by_cases h : isWordChar d || isSpaceChar d
  · rw [if_pos h] at hd
    subst hd
    exact Bool.or_eq_true _ _ |>.mp h
  · rw [if_neg h] at hd
    subst hd
    right
    decide

lemma replaceNonWord_mem (s : List Char) :
    ∀ c ∈ replaceNonWord s, c ∈ s ∨ c = ' ' := by
  intro c hc
  obtain ⟨d, hds, hd⟩ := List.mem_map.mp hc
  by_cases h : isWordChar d || isSpaceChar d
  · rw [if_pos h] at hd
    subst hd
    exact Or.inl hds
  · rw [if_neg h] at hd
    subst hd
    exact Or.inr rfl

lemma dropWhile_head_not (p : Char → Bool) :
    ∀ (l : List Char) (c : Char), (l.dropWhile p).head? = some c → p c = false := by
  intro l
  induction l with
  | nil => intro c h; cases h
  | cons d t ih =>
    intro c h
    by_cases hd : p d = true
    · rw [List.dropWhile_cons_of_pos hd] at h
      exact ih c h
    · rw [List.dropWhile_cons_of_neg hd] at h
      injection h with h
      subst h
      exact Bool.not_eq_true _ |>.mp hd

lemma dropWhile_chain' (p : Char → Bool) (R : Char → Char → Prop) :
    ∀ (l : List Char), l.Chain' R → (l.dropWhile p).Chain' R := by
  intro l
  induction l with
  | nil => intro h; exact h
  | cons d t ih =>
    intro h
    by_cases hd : p d = true
    · rw [List.dropWhile_cons_of_pos hd]
      exact ih h.tail
    · rw [List.dropWhile_cons_of_neg hd]
      exact h

lemma dropWhile_eq_self (p : Char → Bool) (l : List Char)
    (h : ∀ c, l.head? = some c → p c = false) : l.dropWhile p = l := by
  cases l with
  | nil => rfl
  | cons d t => exact List.dropWhile_cons_of_neg (by simp [h d rfl])

lemma rtrim_cons (c : Char) (t : List Char) :
    rtrim (c :: t) = if (rtrim t).isEmpty && isSpaceChar c then [] else c :: rtrim t := rfl

lemma rtrim_mem : ∀ (s : List Char), ∀ c ∈ rtrim s, c ∈ s := by
  intro s
  induction s with
  | nil => intro c hc; cases hc
  | cons d t ih =>
    intro c hc
    rw [rtrim_cons] at hc
    by_cases h : (rtrim t).isEmpty && isSpaceChar d
    · rw [if_pos h] at hc
      cases hc
    · rw [if_neg h] at hc
      rcases List.mem_cons.mp hc with h' | h'
      · simp [h']
      · exact List.mem_cons_of_mem _ (ih c h')

lemma rtrim_head? : ∀ (s : List Char), rtrim s = [] ∨ (rtrim s).head? = s.head? := by
  intro s
  cases s with
  | nil => exact Or.inl rfl
  | cons d t =>
    rw [rtrim_cons]
    by_cases h : (rtrim t).isEmpty && isSpaceChar d
    · rw [if_pos h]
      exact Or.inl rfl
    · rw [if_neg h]
      exact Or.inr rfl

lemma rtrim_chain' (R : Char → Char → Prop) :
    ∀ (s : List Char), s.Chain' R → (rtrim s).Chain' R := by
  intro s
  induction s with
  | nil => intro h; exact h
  | cons d t ih =>
    intro h
    rw [rtrim_cons]
    by_cases hc : (rtrim t).isEmpty && isSpaceChar d
    · rw [if_pos hc]
      exact List.chain'_nil
    · rw [if_neg hc]
      rw [List.chain'_cons']
      refine ⟨?_, ih h.tail⟩
      intro y hy
      rcases rtrim_head? t with h' | h'
      · rw [h'] at hy
        cases hy
      · rw [h'] at hy
        exact (List.chain'_cons'.mp h).1 y hy

lemma rtrim_getLast_not_space :
    ∀ (s : List Char) (c : Char), (rtrim s).getLast? = some c → isSpaceChar c = false := by
  intro s
  induction s with
  | nil => intro c h; cases h
  | cons d t ih =>
    intro c h
    rw [rtrim_cons] at h
    by_cases hc : (rtrim t).isEmpty && isSpaceChar d
    · rw [if_pos hc] at h
      cases h
    · rw [if_neg hc] at h
      rcases he : rtrim t with _ | ⟨y, ys⟩
      · rw [he] at h
        simp only [List.getLast?_singleton, Option.some_inj] at h
        subst h
        rw [he] at hc
        simpa using hc
      · rw [he] at h
        rw [List.getLast?_cons_cons] at h
        rw [← he] at h
        exact ih c h

lemma rtrim_eq_self (s : List Char)
    (h : ∀ c, s.getLast? = some c → isSpaceChar c = false) : rtrim s = s := by
  induction s with
  | nil => rfl
  | cons d t ih =>
    rw [rtrim_cons]
    have htr : rtrim t = t := by
      apply ih
      intro c hc
      apply h
      cases t with
      | nil => cases hc
      | cons y ys =>
        rw [List.getLast?_cons_cons]
        exact hc
    rw [htr]
    cases t with
    | nil =>
      have hd : isSpaceChar d = false := h d (by simp)
      simp [hd]
    | cons y ys => simp

lemma trimWs_mem (s : List Char) : ∀ c ∈ trimWs s, c ∈ s := by
  intro c hc
  exact (List.dropWhile_sublist isSpaceChar).subset (rtrim_mem _ c hc)

lemma trimWs_chain' (R : Char → Char → Prop) (s : List Char) (h : s.Chain' R) :
    (trimWs s).Chain' R :=
  rtrim_chain' R _ (dropWhile_chain' isSpaceChar R s h)

lemma trimWs_head_not_space (s : List Char) :
    ∀ c, (trimWs s).head? = some c → isSpaceChar c = false := by
  intro c hc
  rcases rtrim_head? (s.dropWhile isSpaceChar) with h' | h'
  · rw [trimWs] at hc
    rw [h'] at hc
    cases hc
  · rw [trimWs] at hc
    rw [h'] at hc
    exact dropWhile_head_not isSpaceChar s c hc

lemma trimWs_getLast_not_space (s : List Char) :
    ∀ c, (trimWs s).getLast? = some c → isSpaceChar c = false :=
  fun c hc => rtrim_getLast_not_space _ c hc

lemma trimWs_eq_self (s : List Char)
    (hh : ∀ c, s.head? = some c → isSpaceChar c = false)
    (hl : ∀ c, s.getLast? = some c → isSpaceChar c = false) : trimWs s = s := by
  rw [trimWs, dropWhile_eq_self isSpaceChar s hh, rtrim_eq_self s hl]

lemma collapseAux_mem :
    ∀ (n : Nat) (s : List Char), ∀ c ∈ collapseAux n s, c ∈ s ∨ c = ' ' := by
  intro n
  induction n with
  | zero =>
    intro s c hc
    cases s with
    | nil => cases hc
    | cons d t => exact Or.inl (by simpa [collapseAux] using hc)
  | succ m ih =>
    intro s c hc
    cases s with
    | nil => cases hc
    | cons d t =>
      simp only [collapseAux] at hc
      by_cases hd : isSpaceChar d = true
      · rw [if_pos hd] at hc
        rcases List.mem_cons.mp hc with h' | h'
        · exact Or.inr h'
        · rcases ih (t.dropWhile isSpaceChar) c h' with h'' | h''
          · exact Or.inl (List.mem_cons_of_mem _
              ((List.dropWhile_sublist isSpaceChar).subset h''))
          · exact Or.inr h''
      · rw [if_neg hd] at hc
        rcases List.mem_cons.mp hc with h' | h'
        · exact Or.inl (by simp [h'])
        · rcases ih t c h' with h'' | h''
          · exact Or.inl (List.mem_cons_of_mem _ h'')
          · exact Or.inr h''

lemma collapseAux_space_eq :
    ∀ (n : Nat) (s : List Char), s.length ≤ n →
    ∀ c ∈ collapseAux n s, isSpaceChar c = true → c = ' ' := by
  intro n
  induction n with
  | zero =>
    intro s hlen c hc
    cases s with
    | nil => cases hc
    | cons d t => simp at hlen
  | succ m ih =>
    intro s hlen c hc hsp
    cases s with
    | nil => cases hc
    | cons d t =>
      simp only [collapseAux] at hc
      simp only [List.length_cons] at hlen
      by_cases hd : isSpaceChar d = true
      · rw [if_pos hd] at hc
        rcases List.mem_cons.mp hc with h' | h'
        · exact h'
        · exact ih (t.dropWhile isSpaceChar)
            (le_trans (List.dropWhile_sublist isSpaceChar).length_le (by omega)) c h' hsp
      · rw [if_neg hd] at hc
        rcases List.mem_cons.mp hc with h' | h'
        · subst h'
          exact absurd hsp hd
        · exact ih t (by omega) c h' hsp

lemma collapseAux_head_not_space :
    ∀ (n : Nat) (s : List Char),
    (∀ c, s.head? = some c → isSpaceChar c = false) →
    ∀ c, (collapseAux n s).head? = some c → isSpaceChar c = false := by
  intro n
  induction n with
  | zero =>
    intro s hs c hc
    cases s with
    | nil => cases hc
    | cons d t => exact hs c (by simpa [collapseAux] using hc)
  | succ m _ =>
    intro s hs c hc
    cases s with
    | nil => cases hc
    | cons d t =>
      simp only [collapseAux] at hc
      by_cases hd : isSpaceChar d = true
      · exact absurd (hs d rfl) (by simp [hd])
      · rw [if_neg hd] at hc
        injection hc with hc
        subst hc
        simpa using hd

lemma collapseAux_chain' :
    ∀ (n : Nat) (s : List Char), s.length ≤ n →
    (collapseAux n s).Chain' (fun a b => ¬(a = ' ' ∧ b = ' ')) := by
  intro n
  induction n with
  | zero =>
    intro s hlen
    cases s with
    | nil => exact List.chain'_nil
    | cons d t => simp at hlen
  | succ m ih =>
    intro s hlen
    cases s with
    | nil => exact List.chain'_nil
    | cons d t =>
      simp only [collapseAux]
      simp only [List.length_cons] at hlen
      by_cases hd : isSpaceChar d = true
      · rw [if_pos hd]
        rw [List.chain'_cons']
        constructor
        · intro y hy
          have hns : isSpaceChar y = false := by
            apply collapseAux_head_not_space m (t.dropWhile isSpaceChar)
              (fun c hc => dropWhile_head_not isSpaceChar t c hc) y hy
          intro hcon
          rw [hcon.2] at hns
          exact absurd hns (by decide)
        · exact ih (t.dropWhile isSpaceChar)
            (le_trans (List.dropWhile_sublist isSpaceChar).length_le (by omega))
      · rw [if_neg hd]
        rw [List.chain'_cons']
        constructor
        · intro y _
          intro hcon
          rw [hcon.1] at hd
          exact absurd hd (by decide)
        · exact ih t (by omega)

lemma collapseAux_eq_self :
    ∀ (n : Nat) (s : List Char), s.length ≤ n →
    (∀ c ∈ s, isSpaceChar c = true → c = ' ') →
    s.Chain' (fun a b => ¬(a = ' ' ∧ b = ' ')) →
    collapseAux n s = s := by
  intro n
  induction n with
  | zero =>
    intro s hlen _ _
    cases s with
    | nil => rfl
    | cons d t => simp at hlen
  | succ m ih =>
    intro s hlen hsp hch
    cases s with
    | nil => rfl
    | cons d t =>
      simp only [collapseAux]
      simp only [List.length_cons] at hlen
      by_cases hd : isSpaceChar d = true
      · rw [if_pos hd]
        have hdeq : d = ' ' := hsp d (by simp) hd
        have hdrop : t.dropWhile isSpaceChar = t := by
          apply dropWhile_eq_self
          intro c hc
          by_contra hcsp
          have hc' : isSpaceChar c = true := by simpa using hcsp
          have hceq : c = ' ' := by
            apply hsp c _ hc'
            cases t with
            | nil => cases hc
            | cons y ys =>
              injection hc with hc
              simp [hc]
          have := (List.chain'_cons'.mp hch).1 c hc
          exact this ⟨hdeq, hceq⟩
        rw [hdrop]
        rw [ih t (by omega) (fun c hc h => hsp c (List.mem_cons_of_mem _ hc) h) hch.tail]
        rw [hdeq]
      · rw [if_neg hd]
        rw [ih t (by omega) (fun c hc h => hsp c (List.mem_cons_of_mem _ hc) h) hch.tail]

lemma toLower_idem (c : Char) : (c.toLower).toLower = c.toLower := by
  unfold Char.toLower
  by_cases h : c.toNat ≥ 65 ∧ c.toNat ≤ 90
  · rw [if_pos h]
    have hvalid : (c.toNat + 32).isValidChar := by
      left
      have := h.2
      unfold Char.toNat at this ⊢
      omega
    have hv : ((Char.ofNat (c.toNat + 32)).toNat) = c.toNat + 32 := by
      unfold Char.ofNat
      rw [dif_pos hvalid]
      rfl
    rw [hv]
    rw [if_neg (by omega)]
  · rw [if_neg h, if_neg h]

lemma map_eq_self_of (f : Char → Char) (l : List Char) (h : ∀ c ∈ l, f c = c) :
    l.map f = l := by
  induction l with
  | nil => rfl
  | cons c t ih => simp [h c (by simp), ih (fun d hd => h d (by simp [hd]))]

/-- Unfolds a successful normalization into its pipeline. -/
lemma clean_eq (x r : List Char) (h : cleanCompanyName x = some r) :
    r = trimWs (collapseWs (replaceNonWord (replacePass pass3 (replacePass pass2
      (replacePass pass1 (trimWs (x.map Char.toLower))))))) := by
  by_cases ht : trimWs x = []
  · rw [cleanCompanyName, if_pos ht] at h
    cases h
  · rw [cleanCompanyName, if_neg ht] at h
    exact (Option.some_inj.mp h).symm

/-- Structure of every successful normalization result: only word
characters and spaces, every whitespace character is a plain space, every
character is lowercase-invariant, no two adjacent spaces, and no space at
either end. -/
lemma clean_output_spec (x r : List Char) (h : cleanCompanyName x = some r) :
    (∀ c ∈ r, isWordChar c = true ∨ c = ' ') ∧
    (∀ c ∈ r, isSpaceChar c = true → c = ' ') ∧
    (∀ c ∈ r, Char.toLower c = c) ∧
    r.Chain' (fun a b => ¬(a = ' ' ∧ b = ' ')) ∧
    (∀ c, r.head? = some c → isSpaceChar c = false) ∧
    (∀ c, r.getLast? = some c → isSpaceChar c = false) := by
  have hr := clean_eq x r h
  subst hr
  set n3 := replacePass pass3 (replacePass pass2
    (replacePass pass1 (trimWs (x.map Char.toLower)))) with hn3
  refine ⟨?_, ?_, ?_, ?_, ?_, ?_⟩
  · intro c hc
    have hc1 := trimWs_mem _ c hc
    rw [collapseWs] at hc1
    rcases collapseAux_mem _ _ c hc1 with h1 | h1
    · rcases replaceNonWord_word_or_space n3 c h1 with h2 | h2
      · exact Or.inl h2
      · exact Or.inr (collapseAux_space_eq _ _ (le_refl _) c hc1 h2)
    · exact Or.inr h1
  · intro c hc hsp
    have hc1 := trimWs_mem _ c hc
    rw [collapseWs] at hc1
    exact collapseAux_space_eq _ _ (le_refl _) c hc1 hsp
  · intro c hc
    have hc1 := trimWs_mem _ c hc
    rw [collapseWs] at hc1
    rcases collapseAux_mem _ _ c hc1 with h1 | h1
    · rcases replaceNonWord_mem n3 c h1 with h2 | h2
      · have h3 := replacePass_mem _ _ c h2
        have h4 := replacePass_mem _ _ c h3
        have h5 := replacePass_mem _ _ c h4
        have h6 := trimWs_mem _ c h5
        obtain ⟨d, _, hd⟩ := List.mem_map.mp h6
        rw [← hd]
        exact toLower_idem d
      · rw [h2]; rfl
    · rw [h1]; rfl
  · apply trimWs_chain'
    rw [collapseWs]
    exact collapseAux_chain' _ _ (le_refl _)
  · exact trimWs_head_not_space _
  · exact trimWs_getLast_not_space _

/-- C8 (amended): a successful normalization result contains only ASCII
word characters (letters, digits, underscore) and single interior spaces:
no two adjacent spaces, no whitespace other than the plain space, and no
space at either end.  The claim as stated omits the underscore, which the
JavaScript class `\w` keeps (see the counterexample). -/
theorem clean_output_wellformed (x r : List Char) (h : cleanCompanyName x = some r) :
    (∀ c ∈ r, isWordChar c = true ∨ c = ' ') ∧
    (∀ c ∈ r, isSpaceChar c = true → c = ' ') ∧
    r.Chain' (fun a b => ¬(a = ' ' ∧ b = ' ')) ∧
    (∀ c, r.head? = some c → c ≠ ' ') ∧
    (∀ c, r.getLast? = some c → c ≠ ' ') := by
  obtain ⟨h1, h2, _, h4, h5, h6⟩ := clean_output_spec x r h
  refine ⟨h1, h2, h4, ?_, ?_⟩
  · intro c hc hcon
    have := h5 c hc
    rw [hcon] at this
    simp [isSpaceChar] at this
  · intro c hc hcon
    have := h6 c hc
    rw [hcon] at this
    simp [isSpaceChar] at this

/-- C8 witness at a concrete input with punctuation and double spaces. -/
theorem clean_output_wellformed_witness :
    (∀ c ∈ "ab cd".toList, isWordChar c = true ∨ c = ' ') ∧
    (∀ c ∈ "ab cd".toList, isSpaceChar c = true → c = ' ') ∧
    ("ab cd".toList).Chain' (fun a b => ¬(a = ' ' ∧ b = ' ')) ∧
    (∀ c, ("ab cd".toList).head? = some c → c ≠ ' ') ∧
    (∀ c, ("ab cd".toList).getLast? = some c → c ≠ ' ') :=
  clean_output_wellformed "ab,  cd!".toList "ab cd".toList (by decide)

/-- C8 counterexample: "a_b" normalizes to "a_b", which contains an
underscore — a character that is neither a letter, nor a digit, nor a
space, contradicting the claim that only letters, digits and single
interior spaces remain. -/
theorem clean_output_cex :
    cleanCompanyName "a_b".toList = some "a_b".toList ∧
    '_' ∈ "a_b".toList ∧
    Char.isAlpha '_' = false ∧ Char.isDigit '_' = false ∧ '_' ≠ ' ' := by
  refine ⟨by decide, by decide, by decide, by decide, by decide⟩

/-- C5 (amended): normalization is idempotent on results that the three
whole-word removal passes leave unchanged: if `cleanCompanyName x = some r`
with `r` non-empty and each removal pass fixes `r`, then
`cleanCompanyName r = some r`.  In general idempotence fails: a removal
can join adjacent characters into a fresh removable word (see the
counterexample "lt&d"). -/
theorem clean_idempotent_on_stable (x r : List Char)
    (hx : cleanCompanyName x = some r) (hr : r ≠ [])
    (h1 : replacePass pass1 r = r) (h2 : replacePass pass2 r = r)
    (h3 : replacePass pass3 r = r) :
    cleanCompanyName r = some r := by
  obtain ⟨hw, hsp, hlow, hch, hhead, hlast⟩ := clean_output_spec x r hx
  have htrim : trimWs r = r := trimWs_eq_self r hhead hlast
  have hmap : r.map Char.toLower = r := map_eq_self_of _ r hlow
  have hrnw : replaceNonWord r = r := by
    apply map_eq_self_of
    intro c hc
    rcases hw c hc with h' | h'
    · rw [if_pos (by simp [h'])]
    · rw [if_pos (by subst h'; decide)]
  have hcol : collapseWs r = r := by
    rw [collapseWs]
    exact collapseAux_eq_self r.length r (le_refl _) hsp hch
  rw [cleanCompanyName, if_neg (by rw [htrim]; exact hr)]
  simp only [hmap, htrim, h1, h2, h3, hrnw, hcol]

/-- C5 witness: "Apple Inc." normalizes to "apple", which the removal
passes fix, and normalizing "apple" again yields "apple". -/
theorem clean_idempotent_on_stable_witness :
    cleanCompanyName "apple".toList = some "apple".toList :=
  clean_idempotent_on_stable "Apple Inc.".toList "apple".toList
    (by decide) (by decide) (by decide) (by decide) (by decide)

/-- C5 counterexample: removing the connective "&" from "lt&d" joins the
surrounding characters into the removable word "ltd", so
`normalize("lt&d") = "ltd"` while `normalize("ltd") = ""`: normalization
is not idempotent, and normalizing the already-normalized string "ltd"
does not yield itself. -/
theorem clean_idempotent_cex :
    cleanCompanyName "lt&d".toList = some "ltd".toList ∧
    cleanCompanyName "ltd".toList = some [] ∧
    "ltd".toList ≠ ([] : List Char) := by
  refine ⟨by decide, by decide, by decide⟩

end Tickerizer
